import Mathlib

/-!
Verification development for a Usenet streaming engine: the NZB document
model, the ordered segments stream (parallel fetch, in-order reassembly),
the seekable file stream with interpolation-based segment lookup, RAR
archive streamability, multi-volume archive grouping, the content-path
resolver, and the NZB-file fetch cache.

Shallow embedding conventions: Go int64/int are modelled as Lean Int (no
claim here depends on overflow), byte slices as List Nat, Go maps as
association lists with map semantics (lookup finds the newest entry,
delete removes the key), and Go channels consumed by a single reader as
queues (List).  Loops that Go writes as unbounded for-loops are embedded
with an explicit fuel argument chosen at the call site to dominate the
loop's (provable) iteration bound, so that every definition evaluates by
kernel reduction.
-/

namespace Newz

/-! ## Byte ranges (stream.go: ByteRange) -/

/-- Half-open byte range, `[Start, End)`. -/
structure ByteRange where
  Start : Int
  End : Int
deriving Repr, DecidableEq

/-- Number of bytes in the range (`ByteRange.Count`). -/
def ByteRange.Count (r : ByteRange) : Int := r.End - r.Start

/-- Membership of a byte index in the range (`ByteRange.Contains`). -/
def ByteRange.Contains (r : ByteRange) (byteIdx : Int) : Bool :=
  r.Start ≤ byteIdx && byteIdx < r.End

/-- Range inclusion (`ByteRange.ContainsRange`). -/
def ByteRange.ContainsRange (r other : ByteRange) : Bool :=
  r.Start ≤ other.Start && other.End ≤ r.End

/-! ## NZB document model (nzb package) -/

/-- One segment entry of an NZB file: declared encoded size, 1-based
number, and the message-id text. -/
structure Segment where
  Bytes : Int
  Number : Int
  MessageId : String
deriving Repr, DecidableEq

/-- One file of an NZB document.  `name` is the subject-derived name
(the derivation itself is not needed by any claim). -/
structure NzbFile where
  Subject : String
  Groups : List String
  Segments : List Segment
  name : String
deriving Repr, DecidableEq

/-- Accessor mirroring `File.Name()`. -/
def NzbFile.Name (f : NzbFile) : String := f.name

/-- Sum of declared segment sizes, mirroring `File.Size()` (the source
memoises the sum in `totalSize`; the value is the same). -/
def NzbFile.Size (f : NzbFile) : Int :=
  (f.Segments.map Segment.Bytes).sum

/-- Number of segments, mirroring `File.SegmentCount()`. -/
def NzbFile.SegmentCount (f : NzbFile) : Nat := f.Segments.length

/-- An NZB document: the ordered list of files (head metadata is not
needed by any claim). -/
structure NZB where
  Files : List NzbFile
deriving Repr, DecidableEq

/-- Loop body of `NZB.GetLargestFileIdx`: walk the files with their
index, skipping names for which `skip` holds, keeping the first index
whose size strictly exceeds the best size so far (which starts at 0). -/
def getLargestAux (skip : String → Bool) : List NzbFile → Int → Int → Int → Int
  | [], _, largestIdx, _ => largestIdx
  | f :: rest, i, largestIdx, largestSize =>
    if skip f.Name then
      getLargestAux skip rest (i + 1) largestIdx largestSize
    else if largestSize < f.Size then
      getLargestAux skip rest (i + 1) i f.Size
    else
      getLargestAux skip rest (i + 1) largestIdx largestSize

/-- Mirrors `NZB.GetLargestFileIdx` (a nil `skip` in Go behaves as the
constantly-false predicate). -/
def NZB.GetLargestFileIdx (n : NZB) (skip : String → Bool) : Int :=
  getLargestAux skip n.Files 0 (-1) 0

/-- Per-file contribution to `NZB.HashByFileBoundarySegmentIds`: the
trimmed first message-id, followed by the trimmed last message-id when
the file has more than one segment. -/
def boundarySegmentIds : List Segment → String
  | [] => ""
  | [s] => s.MessageId.trim
  | s :: t :: rest =>
    s.MessageId.trim ++ ((t :: rest).getLast (List.cons_ne_nil t rest)).MessageId.trim

/-- Mirrors `NZB.HashByFileBoundarySegmentIds`.  The md5 digest
(crypto/md5, external) is abstracted as a function parameter applied to
the concatenated boundary ids exactly as the source feeds them to the
hasher. -/
def NZB.HashByFileBoundarySegmentIds (md5hex : String → String) (n : NZB) : String :=
  md5hex (String.join (n.Files.map (fun f => boundarySegmentIds f.Segments)))

/-! ## Segments stream (segments_stream.go: collector and Read) -/

/-- Decoded segment payload (`SegmentData`): body bytes, decoded byte
range within the file, total decoded file size, and decoded size. -/
structure SegmentData where
  Body : List Nat
  ByteRange : ByteRange
  FileSize : Int
  Size : Int
deriving Repr, DecidableEq

/-- Go `delete(pending, i)` on the association-list rendering of a map:
remove every pair carrying the key. -/
def mapDelete (pending : List (Nat × SegmentData)) (i : Nat) : List (Nat × SegmentData) :=
  pending.filter (fun kv => kv.1 ≠ i)

/-- Collector state (`startSegmentResultCollector`): out-of-order results
pending by index, the next index to emit, and the data emitted onto the
output channel so far. -/
structure CollectorState where
  pending : List (Nat × SegmentData)
  nextIdx : Nat
  emitted : List SegmentData
deriving Repr, DecidableEq

/-- Inner flush loop of the collector: emit consecutive indices while
they are pending.  Each iteration removes one pending entry, so the
pending size bounds the iteration count; fuel is instantiated with that
bound at the call site, making the fuel-out branch unreachable. -/
def flushPending : Nat → CollectorState → CollectorState
  | 0, st => st
  | fuel + 1, st =>
    match st.pending.lookup st.nextIdx with
    | none => st
    | some d =>
      flushPending fuel
        { pending := mapDelete st.pending st.nextIdx,
          nextIdx := st.nextIdx + 1,
          emitted := st.emitted ++ [d] }

/-- One collector iteration on a worker result `(idx, data)` in the
error-free case: store the result, then flush in-order entries. -/
def collectorStep (st : CollectorState) (r : Nat × SegmentData) : CollectorState :=
  let st1 : CollectorState := { st with pending := (r.1, r.2) :: st.pending }
  flushPending st1.pending.length st1

/-- Run the collector over a complete error-free result sequence given in
the order the workers happen to deliver. -/
def runCollector (results : List (Nat × SegmentData)) : CollectorState :=
  results.foldl collectorStep ⟨[], 0, []⟩

/-- Read-side state of a segments stream: the current segment body and
position within it, plus the output-channel contents in delivery order
(the channel closes after the last of them). -/
structure RState where
  currData : List Nat
  currPos : Nat
  queue : List SegmentData
deriving Repr, DecidableEq

/-- Bytes a reader can still obtain: the rest of the current segment
followed by the queued segment bodies. -/
def RState.remaining (st : RState) : List Nat :=
  st.currData.drop st.currPos ++ (st.queue.map SegmentData.Body).flatten

/-- Loop body of `SegmentsStream.Read` in error-free runs (the error
channel stays empty).  `k` is `len(p)` and `acc` the bytes copied so
far; the Bool is true when the call returns `io.EOF`.  Each iteration
either copies at least one byte or dequeues one segment, so
`(k - acc.length) + queue.length` bounds the remaining iterations; fuel
is instantiated above that bound at the call site. -/
def readLoop (k : Nat) : Nat → RState → List Nat → List Nat × Bool × RState
  | 0, st, acc => (acc, false, st)
  | fuel + 1, st, acc =>
    if acc.length < k then
      if st.currPos < st.currData.length then
        let taken := min (k - acc.length) (st.currData.length - st.currPos)
        let chunk := (st.currData.drop st.currPos).take taken
        readLoop k fuel { st with currPos := st.currPos + taken } (acc ++ chunk)
      else
        match st.queue with
        | [] => (acc, acc.isEmpty, st)
        | d :: rest => readLoop k fuel ⟨d.Body, 0, rest⟩ acc
    else (acc, false, st)

/-- Full segments-stream state: the closed flag guarding Read and Close,
the read-side state, and whether `startSegmentFetcher` launched the
dispatcher and workers. -/
structure SegmentsStream where
  closed : Bool
  rstate : RState
  fetchWorkersStarted : Bool
deriving Repr, DecidableEq

/-- Stream construction (`NewSegmentsStream` plus `startSegmentFetcher`):
with no segments the output channel is closed at once and no dispatcher
or workers start; otherwise the pipeline runs and `delivered` is what the
collector emits onto the output channel. -/
def SegmentsStream.init (segments : List Segment) (delivered : List SegmentData) :
    SegmentsStream :=
  if segments.isEmpty then ⟨false, ⟨[], 0, []⟩, false⟩
  else ⟨false, ⟨[], 0, delivered⟩, true⟩

/-- Mirrors `SegmentsStream.Read` with a buffer of size `k`: a closed
stream returns `(0, io.EOF)`; otherwise the read loop runs. -/
def SegmentsStream.Read (st : SegmentsStream) (k : Nat) :
    List Nat × Bool × SegmentsStream :=
  if st.closed then ([], true, st)
  else
    let r := readLoop k (k + st.rstate.queue.length + 1) st.rstate []
    (r.1, r.2.1, { st with rstate := r.2.2 })

/-- Mirrors `SegmentsStream.Close`: idempotent; cancels the pipeline and
drains the output channel.  The returned error is always nil. -/
def SegmentsStream.Close (st : SegmentsStream) : Option String × SegmentsStream :=
  if st.closed then (none, st)
  else (none, { st with closed := true, rstate := { st.rstate with queue := [] } })

/-- Read to exhaustion with chunk size `k`: repeat Read until it reports
EOF, concatenating the bytes.  Fuel bounds the number of Read calls
(each non-EOF call with `1 ≤ k` consumes at least one byte). -/
def readToExhaustion : Nat → Nat → SegmentsStream → List Nat × Bool
  | 0, _, _ => ([], false)
  | fuel + 1, k, st =>
    let r := st.Read k
    if r.2.1 then (r.1, true)
    else
      let rr := readToExhaustion fuel k r.2.2
      (r.1 ++ rr.1, rr.2)

/-! ## File stream seeking (stream.go: FileStream.Seek) -/

/-- Mirrors `FileStream.Seek`: given the current position and the file
size, compute the new position from `offset`/`whence` (0 = start, 1 =
current, 2 = end, Go `io.Seek*` constants).  Returns the stored position
after the call together with the returned value or error. -/
def FileStream.seek (position fileSize offset whence : Int) :
    Int × Except String Int :=
  if whence = 0 then seekTo position fileSize offset
  else if whence = 1 then seekTo position fileSize (position + offset)
  else if whence = 2 then seekTo position fileSize (fileSize + offset)
  else (position, .error "invalid whence")
where
  /-- Shared tail of `Seek`: negative positions fail leaving the position
  unchanged; positions past the file size clamp to it. -/
  seekTo (position fileSize newPos : Int) : Int × Except String Int :=
    if newPos < 0 then (position, .error "negative position")
    else if fileSize < newPos then (fileSize, .ok fileSize)
    else (newPos, .ok newPos)

/-! ## Interpolation search (stream.go: FileStream.interpolationSearch)

The search probes segment byte ranges through the pool; the pool is
modelled as an oracle `ranges : Nat → ByteRange` and every probe
succeeds.  `NewFileStream` computes `segmentSizeRatio` as the float64
quotient `fileSize / totalSegmentBytes` (1 when the divisor is not
positive) and `estimateSegmentIndex` truncates `float64(segBytes) *
ratio` to int64; both are modelled in exact arithmetic, where the
truncation of the non-negative product equals the integer floor
`segBytes * fileSize / totalBytes`. -/

/-- Result of a successful search (`searchResult`). -/
structure SearchResult where
  SegmentIndex : Int
  ByteRange : ByteRange
deriving Repr, DecidableEq

/-- Loop body of `FileStream.estimateSegmentIndex`: accumulate each
segment's estimated decoded size until the running offset passes the
target; fall back to the last index. -/
def estimateAux (fileSize totalBytes targetByte : Int) (fallback : Int) :
    List Int → Int → Int → Int
  | [], _, _ => fallback
  | b :: rest, i, offset =>
    if b ≤ 0 then estimateAux fileSize totalBytes targetByte fallback rest (i + 1) offset
    else
      let est := if 0 < totalBytes then b * fileSize / totalBytes else b
      if targetByte < offset + est then i
      else estimateAux fileSize totalBytes targetByte fallback rest (i + 1) (offset + est)

/-- Mirrors `FileStream.estimateSegmentIndex` (with the ratio expanded to
`fileSize / totalBytes` as computed in `NewFileStream`). -/
def estimateSegmentIndex (segBytes : List Int) (fileSize targetByte : Int) : Int :=
  estimateAux fileSize (segBytes.sum) targetByte ((segBytes.length : Int) - 1) segBytes 0 0

/-- Main loop of `FileStream.interpolationSearch`.  Returns the number of
segment-range probes performed together with the result (`none` for the
not-found and corrupt error exits).  The index range shrinks strictly at
every iteration, so `indexRange.Count` bounds the iteration count; fuel
is instantiated above that bound at the call site, making the fuel-out
branch unreachable. -/
def searchLoop (ranges : Nat → ByteRange) (target : Int) :
    Nat → ByteRange → ByteRange → Nat × Option SearchResult
  | 0, _, _ => (0, none)
  | fuel + 1, indexRange, byteRange =>
    if !byteRange.Contains target || indexRange.Count ≤ 0 then (0, none)
    else
      let guessedOffset := (target - byteRange.Start) * indexRange.Count / byteRange.Count
      let g0 := indexRange.Start + guessedOffset
      let g :=
        if g0 < indexRange.Start then indexRange.Start
        else if indexRange.End ≤ g0 then indexRange.End - 1
        else g0
      let segmentRange := ranges g.toNat
      if !byteRange.ContainsRange segmentRange then (1, none)
      else if segmentRange.Contains target then (1, some ⟨g, segmentRange⟩)
      else if target < segmentRange.Start then
        let r := searchLoop ranges target fuel ⟨indexRange.Start, g⟩
          ⟨byteRange.Start, segmentRange.Start⟩
        (r.1 + 1, r.2)
      else
        let r := searchLoop ranges target fuel ⟨g + 1, indexRange.End⟩
          ⟨segmentRange.End, byteRange.End⟩
        (r.1 + 1, r.2)

/-- Mirrors `FileStream.interpolationSearch` over the probe oracle:
bounds checks, the initial estimated probe, narrowing on a miss, then the
interpolation loop.  Returns the probe count and the search outcome. -/
def interpolationSearch (segBytes : List Int) (fileSize : Int)
    (ranges : Nat → ByteRange) (target : Int) : Nat × Option SearchResult :=
  let segmentCount : Int := segBytes.length
  if segmentCount = 0 then (0, none)
  else if target < 0 || fileSize ≤ target then (0, none)
  else
    let estimatedIdx := estimateSegmentIndex segBytes fileSize target
    if 0 ≤ estimatedIdx && estimatedIdx < segmentCount then
      let segmentRange := ranges estimatedIdx.toNat
      if segmentRange.Contains target then (1, some ⟨estimatedIdx, segmentRange⟩)
      else
        let iR : ByteRange :=
          if target < segmentRange.Start then ⟨0, estimatedIdx⟩
          else ⟨estimatedIdx + 1, segmentCount⟩
        let bR : ByteRange :=
          if target < segmentRange.Start then ⟨0, segmentRange.Start⟩
          else ⟨segmentRange.End, fileSize⟩
        let r := searchLoop ranges target (iR.Count.toNat + 1) iR bR
        (r.1 + 1, r.2)
    else
      let r := searchLoop ranges target (segmentCount.toNat + 1)
        ⟨0, segmentCount⟩ ⟨0, fileSize⟩
      r

/-! ## RAR archive streamability (usenet_rar.go) -/

/-- One RAR entry header as reported by the external decoder
(rardecode): name, packed and unpacked sizes, solid flag. -/
structure RARHeader where
  Name : String
  PackedSize : Int
  UnPackedSize : Int
  Solid : Bool
deriving Repr, DecidableEq

/-- Mirrors `RARArchive.isSolid` on a successful header iteration: the
archive is solid when any listed header carries the solid flag. -/
def RARArchive.isSolid (headers : List RARHeader) : Bool :=
  headers.any (fun h => h.Solid)

/-- Mirrors `RARArchive.IsStreamable` on a successful header iteration
(an iteration error also yields `false` in the source; the error-free
case is modelled). -/
def RARArchive.IsStreamable (headers : List RARHeader) : Bool :=
  !(RARArchive.isSolid headers)

/-- Mirrors `UsenetRARFile.IsStreamable`: the entry is not solid and is
stored (packed size equals unpacked size). -/
def UsenetRARFile.IsStreamable (h : RARHeader) : Bool :=
  !h.Solid && h.PackedSize = h.UnPackedSize

/-! ## Volume numbering and archive grouping (usenet_rar.go, archive_volume.go)

Filenames are handled at the character level (`String.data`); the
case-insensitive regex suffix matchers of the source are rendered as
explicit matchers on the reversed lower-cased character list, each
returning the captured digits value and the matched suffix length. -/

/-- Lower-cased characters of a name (Go applies `strings.ToLower`
before matching; `(?i)` regexes are equivalent on these names). -/
def lowerChars (s : String) : List Char := s.data.map Char.toLower

/-- Decimal value of a digit string given most-significant first. -/
def digitsVal (ds : List Char) : Nat :=
  ds.foldl (fun acc c => acc * 10 + (c.toNat - 48)) 0

/-- Strip an expected suffix (given reversed) from a reversed name. -/
def stripRev (suffixRev rev : List Char) : Option (List Char) :=
  if suffixRev.isPrefixOf rev then some (rev.drop suffixRev.length) else none

/-- Matcher for `(?i)\.part(\d+)\.rar$` on a reversed lower-cased name:
returns the digits value and the matched length. -/
def matchRarPart (rev : List Char) : Option (Nat × Nat) :=
  match stripRev "rar.".data rev with
  | none => none
  | some rest =>
    let ds := rest.takeWhile Char.isDigit
    if ds.isEmpty then none
    else
      match stripRev "trap.".data (rest.drop ds.length) with
      | none => none
      | some _ => some (digitsVal ds.reverse, 4 + ds.length + 5)

/-- Matcher for `(?i)\.r(\d+)$` on a reversed lower-cased name. -/
def matchRarR (rev : List Char) : Option (Nat × Nat) :=
  let ds := rev.takeWhile Char.isDigit
  if ds.isEmpty then none
  else
    match stripRev "r.".data (rev.drop ds.length) with
    | none => none
    | some _ => some (digitsVal ds.reverse, ds.length + 2)

/-- Matcher for `(?i)\.rar$` on a reversed lower-cased name: returns the
matched length. -/
def matchRarFirst (rev : List Char) : Option Nat :=
  match stripRev "rar.".data rev with
  | none => none
  | some _ => some 4

/-- Matcher for the 7z volume suffix `\.7z\.(\d+)$` (case-insensitive)
on a reversed lower-cased name. -/
def matchSevenZipPart (rev : List Char) : Option (Nat × Nat) :=
  let ds := rev.takeWhile Char.isDigit
  if ds.isEmpty then none
  else
    match stripRev ".z7.".data (rev.drop ds.length) with
    | none => none
    | some _ => some (digitsVal ds.reverse, ds.length + 4)

/-- Matcher for `(?i)\.7z$` on a reversed lower-cased name. -/
def matchSevenZipFirst (rev : List Char) : Option Nat :=
  match stripRev "z7.".data rev with
  | none => none
  | some _ => some 3

/-- Mirrors `GetRARVolumeNumber`: `.partNN.rar` gives NN, `.rNN` gives
NN+1 (`.rar` is the first part), `.rar` gives 0, anything else -1. -/
def GetRARVolumeNumber (filename : String) : Int :=
  let rev := (lowerChars filename).reverse
  match matchRarPart rev with
  | some (n, _) => n
  | none =>
    match matchRarR rev with
    | some (n, _) => (n : Int) + 1
    | none =>
      match matchRarFirst rev with
      | some _ => 0
      | none => -1

/-- Modelled from the spec (section 4.5; the 7z adapter source is not
included): `Get7zVolumeNumber` maps `.7z.NN` to NN, `.7z` to 0 and
anything else to -1. -/
def Get7zVolumeNumber (filename : String) : Int :=
  let rev := (lowerChars filename).reverse
  match matchSevenZipPart rev with
  | some (n, _) => n
  | none =>
    match matchSevenZipFirst rev with
    | some _ => 0
    | none => -1

/-- Archive file type (`FileType`; only the variants the grouper uses). -/
inductive FileType
  | Plain
  | RAR
  | SevenZ
deriving Repr, DecidableEq

/-- String form of a file type as used in the grouping key
(`FileType.String()`; the exact strings only need to be distinct). -/
def FileType.str : FileType → String
  | .Plain => "plain"
  | .RAR => "rar"
  | .SevenZ => "7z"

/-- Mirrors `getArchiveBaseName`: try the RAR volume patterns and then
the 7z ones on the lower-cased name; the base name is the original name
with the matched suffix length removed. -/
def getArchiveBaseName (filename : String) : String × FileType :=
  let rev := (lowerChars filename).reverse
  let chars := filename.data
  match matchRarPart rev with
  | some (_, len) => (⟨chars.take (chars.length - len)⟩, .RAR)
  | none =>
    match matchRarR rev with
    | some (_, len) => (⟨chars.take (chars.length - len)⟩, .RAR)
    | none =>
      match matchRarFirst rev with
      | some len => (⟨chars.take (chars.length - len)⟩, .RAR)
      | none =>
        match matchSevenZipPart rev with
        | some (_, len) => (⟨chars.take (chars.length - len)⟩, .SevenZ)
        | none =>
          match matchSevenZipFirst rev with
          | some len => (⟨chars.take (chars.length - len)⟩, .SevenZ)
          | none => ("", .Plain)

/-- The `simpleFile` instantiation of the generic grouper: a name and a
size (these files do not implement `typedArchiveFile`, so the aliased
branch of the grouper is never taken for them). -/
structure SimpleFile where
  Name : String
  Size : Int
deriving Repr, DecidableEq

/-- Mirrors `getFileVolume` for `simpleFile` values: dispatch on the
group's file type. -/
def getFileVolume (f : SimpleFile) : FileType → Int
  | .RAR => GetRARVolumeNumber f.Name
  | .SevenZ => Get7zVolumeNumber f.Name
  | .Plain => -1

/-- One group of `groupArchiveVolumes` (`archiveVolumeGroup`). -/
structure ArchiveVolumeGroup where
  BaseName : String
  Aliased : Bool
  FileType : FileType
  Files : List SimpleFile
  Volumes : List Int
  TotalSize : Int
deriving Repr, DecidableEq

/-- Stable insertion sort: the model of `slices.SortStableFunc` (a
stable sort is determined up to equality by the total preorder `le`,
so any stable sorting algorithm yields this result). -/
def insertSorted (le : α → α → Bool) (a : α) : List α → List α
  | [] => [a]
  | b :: bs => if le a b then a :: b :: bs else b :: insertSorted le a bs

/-- Stable sort by repeated insertion. -/
def stableSort (le : α → α → Bool) : List α → List α
  | [] => []
  | a :: as => insertSorted le a (stableSort le as)

/-- Update the grouping map: append the file to its group's list and
size, or open a new group.  The Go map plus its final iteration is
modelled as an insertion-ordered association list (one admissible
iteration order; the properties proved below are order-invariant). -/
def updateGroups (key : String) (f : SimpleFile) (baseName : String) (ft : FileType) :
    List (String × ArchiveVolumeGroup) → List (String × ArchiveVolumeGroup)
  | [] => [(key, ⟨baseName, false, ft, [f], [], f.Size⟩)]
  | (k, g) :: rest =>
    if k = key then
      (k, { g with Files := g.Files ++ [f], TotalSize := g.TotalSize + f.Size }) :: rest
    else (k, g) :: updateGroups key f baseName ft rest

/-- Grouping pass of `groupArchiveVolumes` over the input files.  For
`simpleFile` inputs the `typedArchiveFile` interface check always fails,
so plain-typed names are skipped. -/
def buildGroups (files : List SimpleFile) : List (String × ArchiveVolumeGroup) :=
  files.foldl
    (fun gs f =>
      let bt := getArchiveBaseName f.Name
      if bt.2 = FileType.Plain then gs
      else updateGroups (bt.1 ++ ":" ++ bt.2.str) f bt.1 bt.2 gs)
    []

/-- Per-group finalisation: sort the files stably by volume number
ascending (the source sorts index-volume pairs and rebuilds both lists;
the result is the stable sort of the files by volume, with `Volumes` the
corresponding numbers). -/
def finalizeGroup (g : ArchiveVolumeGroup) : ArchiveVolumeGroup :=
  let sorted := stableSort (fun a b => getFileVolume a g.FileType ≤ getFileVolume b g.FileType) g.Files
  { g with Files := sorted, Volumes := sorted.map (fun f => getFileVolume f g.FileType) }

/-- Mirrors `groupArchiveVolumes` for `simpleFile` inputs: group by
(base name, file type), sort each group's files by volume ascending, and
sort the groups by total size descending (`cmp.Compare(b.TotalSize,
a.TotalSize)` under a stable sort). -/
def groupArchiveVolumes (files : List SimpleFile) : List ArchiveVolumeGroup :=
  stableSort (fun a b => b.TotalSize ≤ a.TotalSize)
    ((buildGroups files).map (fun kg => finalizeGroup kg.2))

/-! ## Largest-file selection (stream.go: StreamLargestFile) -/

/-- Modelled from the spec (section 4.8; the file-type detection source
is not included): extension-based video classification; the spec's
examples use `.mkv` and `.mp4` (and `.avi`) as video files. -/
def isVideoFile (filename : String) : Bool :=
  let rev := (lowerChars filename).reverse
  ("vkm.".data.isPrefixOf rev) || ("4pm.".data.isPrefixOf rev) || ("iva.".data.isPrefixOf rev)

/-- Modelled from the spec (section 4.5; the file-type detection source
is not included): a name is an archive file when it matches one of the
RAR or 7z volume-numbering conventions. -/
def IsArchiveFile (filename : String) : Bool :=
  0 ≤ GetRARVolumeNumber filename || 0 ≤ Get7zVolumeNumber filename

/-- The skip predicate `StreamLargestFile` passes to
`NZB.GetLargestFileIdx`: skip names that are neither video nor archive
files. -/
def streamLargestFileSkip (filename : String) : Bool :=
  !isVideoFile filename && !IsArchiveFile filename

/-- The index `StreamLargestFile` selects and then streams. -/
def StreamLargestFileIdx (n : NZB) : Int :=
  n.GetLargestFileIdx streamLargestFileSkip

/-! ## Content-path resolution (stream.go: findFileByName,
StreamByContentPath) -/

/-- One part entry of a persisted content-file record.  Modelled from
the spec (section 3, Content File): the struct definition is not under
src/; only the `Name` and `Alias` fields are read by the resolver. -/
structure NZBContentFilePart where
  Name : String
  Alias : String
deriving Repr, DecidableEq

/-- A persisted content-file record as read by the resolver.  Modelled
from the spec (section 3, Content File): the struct definition is not
under src/; the fields the resolver reads are `Name`, `Alias` and
`Parts`. -/
structure NZBContentFile where
  Name : String
  Alias : String
  Parts : List NZBContentFilePart
deriving Repr, DecidableEq

/-- Simple-case-folding model of `strings.EqualFold`. -/
def eqFold (a b : String) : Bool :=
  lowerChars a == lowerChars b

/-- Model of `strings.Trim(name, "/")`. -/
def trimSlashes (s : String) : String :=
  ⟨((s.data.dropWhile (· = '/')).reverse.dropWhile (· = '/')).reverse⟩

/-- Mirrors `findFileByName`: find a content-file record whose name or
alias matches case-insensitively, then look the (possibly translated)
name up among the NZB files; `(none, none)` when no NZB file matches. -/
def findFileByName (nzbDoc : NZB) (contentFiles : List NZBContentFile) (name : String) :
    Option NzbFile × Option NZBContentFile :=
  let name := trimSlashes name
  let contentFile := contentFiles.find? (fun cf => eqFold cf.Name name || eqFold cf.Alias name)
  let lookupName :=
    match contentFile with
    | some cf => cf.Name
    | none => name
  match nzbDoc.Files.find? (fun f => eqFold f.Name lookupName) with
  | none => (none, none)
  | some f => (some f, contentFile)

/-- Outcome of the head of `StreamByContentPath`, up to the point where
the archive branch reads `contentFile.Name`. -/
inductive ResolveStep
  | errorInvalidPath
  | errorNoFile
  | plainFile (f : NzbFile)
  | nilDeref
  | archiveDescent (archiveName : String) (f : NzbFile) (aliases : List (String × String))
deriving Repr, DecidableEq

/-- Mirrors `StreamByContentPath` up to the archive-name computation: an
empty or blank path is invalid; an unmatched first element is an error;
a single-element path streams the plain file; otherwise the source
unconditionally evaluates `contentFile.Name` — `nilDeref` marks the run
that dereferences the nil record, and `archiveDescent` carries the
archive name and part aliases computed when the record is present. -/
def streamByContentPathStep (nzbDoc : NZB) (contentFiles : List NZBContentFile)
    (contentPath : List String) : ResolveStep :=
  match contentPath with
  | [] => .errorInvalidPath
  | name :: rest =>
    if name = "" then .errorInvalidPath
    else
      match findFileByName nzbDoc contentFiles name with
      | (none, _) => .errorNoFile
      | (some f, contentFile) =>
        if rest.isEmpty then .plainFile f
        else
          match contentFile with
          | none => .nilDeref
          | some cf =>
            let archiveName := if cf.Alias ≠ "" then cf.Alias else cf.Name
            let aliases := (cf.Parts.filter (fun p => p.Alias ≠ "")).map
              (fun p => (p.Alias, p.Name))
            .archiveDescent archiveName f aliases

/-! ## NZB-file fetch cache (nzb_info/nzb_file.go) -/

/-- Mirrors `cleanNZBFileLink`: cut at the first question mark; when
there is none, cut at the first ampersand instead; then cut at the first
hash. -/
def cleanNZBFileLink (link : String) : String :=
  let cut := fun (s : String) (c : Char) => ((s.data.takeWhile (· ≠ c) : List Char), s.data.contains c)
  let c1 := cut link '?'
  let l2 : List Char := if c1.2 then c1.1 else (List.takeWhile (· ≠ '&') c1.1)
  ⟨l2.takeWhile (· ≠ '#')⟩

/-- The key the spec describes: the URL with its query (everything from
the first question mark) and fragment (everything from the first hash)
removed. -/
def linkWithoutQueryAndFragment (link : String) : String :=
  ⟨(link.data.takeWhile (· ≠ '?')).takeWhile (· ≠ '#')⟩

/-- Mirrors `HashNZBFileLink`; the md5 digest (`util.MD5Hash`, external)
is abstracted as a function parameter. -/
def HashNZBFileLink (md5hex : String → String) (link : String) : String :=
  md5hex (cleanNZBFileLink link)

/-- Cache state of the fetcher: the NZB-file blob cache and the negative
fetch-failure cache (error text plus insertion time, seconds). -/
structure NZBFetchState where
  fileCache : List (String × String)
  errCache : List (String × String × Int)
deriving Repr, DecidableEq

/-- Lifetime of `nzbFetchErrCache` entries: 5 minutes, in seconds. -/
def errCacheLifetime : Int := 300

/-- Expiry-aware get on the failure cache.  Modelled from the spec
(section 7, caching of failure; the TTL cache implementation is not
under src/): an entry is returned while the lifetime has not elapsed. -/
def errCacheGet (st : NZBFetchState) (key : String) (now : Int) : Option String :=
  match st.errCache.lookup key with
  | some (txt, t) => if now < t + errCacheLifetime then some txt else none
  | none => none

/-- Mirrors the control flow of `fetchNZBFile` for a single caller: hit
the blob cache; else hit the failure cache and return the cached error
text; else perform the network fetch (modelled as the oracle `net`),
negatively caching a failure and caching a success.  The Bool records
whether network I/O was performed. -/
def fetchNZBFile (md5hex : String → String) (now : Int) (net : Except String String)
    (st : NZBFetchState) (link : String) :
    Except String String × NZBFetchState × Bool :=
  let cacheKey := HashNZBFileLink md5hex link
  match st.fileCache.lookup cacheKey with
  | some blob => (.ok blob, st, false)
  | none =>
    match errCacheGet st cacheKey now with
    | some txt => (.error ("cached failure: " ++ txt), st, false)
    | none =>
      match net with
      | .error e => (.error e, { st with errCache := (cacheKey, e, now) :: st.errCache }, true)
      | .ok blob => (.ok blob, { st with fileCache := (cacheKey, blob) :: st.fileCache }, true)

/-! ## Collector invariant -/

/-- Invariant of the collector relative to the set `P` of result indices
processed so far, when the result for index `i` is `d i`: pending holds
exactly the processed indices at or above `nextIdx`, everything below
`nextIdx` was processed, `nextIdx` itself was not, and the emissions are
the data of `[0, nextIdx)` in order. -/
def CollectorInv (d : Nat → SegmentData) (P : Finset Nat) (st : CollectorState) : Prop :=
  (∀ i, List.lookup i st.pending = if i ∈ P ∧ st.nextIdx ≤ i then some (d i) else none)
  ∧ (∀ j, j < st.nextIdx → j ∈ P)
  ∧ st.nextIdx ∉ P
  ∧ st.emitted = (List.range st.nextIdx).map d

end Newz

namespace Newz

/-! ## Theorems -/

theorem lookup_mapDelete (p : List (Nat × SegmentData)) (i j : Nat) :
    List.lookup j (mapDelete p i) = if j = i then none else List.lookup j p := by
  induction p with
  | nil => simp [mapDelete]
  | cons kv rest ih =>
    rcases kv with ⟨k, v⟩
    by_cases hk : k = i
    · have hmd : mapDelete ((k, v) :: rest) i = mapDelete rest i := by
        simp [mapDelete, hk]
      rw [hmd, ih]
      by_cases hj : j = i
      · simp [hj]
      · have hb : (j == k) = false := beq_eq_false_iff_ne.mpr (by omega)
        simp [hj, List.lookup_cons, hb]
    · have hmd : mapDelete ((k, v) :: rest) i = (k, v) :: mapDelete rest i := by
        simp [mapDelete, hk]
      rw [hmd]
      by_cases hjk : j = k
      · subst hjk
        have hj : ¬ (j = i) := hk
        simp [List.lookup_cons, hj]
      · have hb : (j == k) = false := beq_eq_false_iff_ne.mpr hjk
        simp [List.lookup_cons, hb, ih]

theorem length_mapDelete_lt (p : List (Nat × SegmentData)) (i : Nat) (v : SegmentData)
    (h : List.lookup i p = some v) : (mapDelete p i).length < p.length := by
  induction p with
  | nil => simp [List.lookup] at h
  | cons kv rest ih =>
    rcases kv with ⟨k, w⟩
    by_cases hik : i = k
    · have hki : k = i := hik.symm
      have hmd : mapDelete ((k, w) :: rest) i = mapDelete rest i := by
        simp [mapDelete, hki]
      rw [hmd]
      calc (mapDelete rest i).length ≤ rest.length := List.length_filter_le _ _
        _ < ((k, w) :: rest).length := by simp
    · have hb : (i == k) = false := beq_eq_false_iff_ne.mpr hik
      rw [List.lookup_cons] at h
      rw [hb] at h
      have hki : ¬ (k = i) := fun hc => hik hc.symm
      have hmd : mapDelete ((k, w) :: rest) i = (k, w) :: mapDelete rest i := by
        simp [mapDelete, hki]
      rw [hmd]
      simpa using Nat.succ_lt_succ (ih h)

theorem flushPending_inv (d : Nat → SegmentData) (P : Finset Nat) :
    ∀ fuel st,
      (∀ i, List.lookup i st.pending = if i ∈ P ∧ st.nextIdx ≤ i then some (d i) else none) →
      (∀ j, j < st.nextIdx → j ∈ P) →
      st.emitted = (List.range st.nextIdx).map d →
      st.pending.length ≤ fuel →
      CollectorInv d P (flushPending fuel st) := by
  intro fuel
  induction fuel with
  | zero =>
    intro st hchar hlow hemit hlen
    have hnil : st.pending = [] := List.length_eq_zero.mp (Nat.le_zero.mp hlen)
    have hnotin : st.nextIdx ∉ P := by
      intro hmem
      have hc := hchar st.nextIdx
      rw [hnil] at hc
      simp [hmem] at hc
    exact ⟨hchar, hlow, hnotin, hemit⟩
  | succ fuel ih =>
    intro st hchar hlow hemit hlen
    cases hl : List.lookup st.nextIdx st.pending with
    | none =>
      have hnotin : st.nextIdx ∉ P := by
        intro hmem
        have hc := hchar st.nextIdx
        rw [hl] at hc
        simp [hmem] at hc
      have hstep : flushPending (fuel + 1) st = st := by
        simp only [flushPending, hl]
      rw [hstep]
      exact ⟨hchar, hlow, hnotin, hemit⟩
    | some v =>
      have hchar0 := hchar st.nextIdx
      rw [hl] at hchar0
      have hmem : st.nextIdx ∈ P ∧ v = d st.nextIdx := by
        by_cases hc : st.nextIdx ∈ P ∧ st.nextIdx ≤ st.nextIdx
        · rw [if_pos hc] at hchar0
          exact ⟨hc.1, by injection hchar0⟩
        · rw [if_neg hc] at hchar0
          cases hchar0
      have hstep : flushPending (fuel + 1) st =
          flushPending fuel
            { pending := mapDelete st.pending st.nextIdx,
              nextIdx := st.nextIdx + 1,
              emitted := st.emitted ++ [v] } := by
        simp only [flushPending, hl]
      rw [hstep]
      apply ih
      · intro i
        show List.lookup i (mapDelete st.pending st.nextIdx) = _
        rw [lookup_mapDelete]
        by_cases hi : i = st.nextIdx
        · rw [if_pos hi]
          have hno : ¬ (i ∈ P ∧ st.nextIdx + 1 ≤ i) := by
            rintro ⟨_, hle⟩
            omega
          rw [if_neg hno]
        · rw [if_neg hi, hchar i]
          by_cases hiP : i ∈ P
          · by_cases hle : st.nextIdx ≤ i
            · have h1 : st.nextIdx + 1 ≤ i := by omega
              simp [hiP, hle, h1]
            · have h1 : ¬ (st.nextIdx + 1 ≤ i) := by omega
              simp [hiP, hle, h1]
          · simp [hiP]
      · intro j hj
        rcases Nat.lt_succ_iff_lt_or_eq.mp hj with h | h
        · exact hlow j h
        · subst h
          exact hmem.1
      · show st.emitted ++ [v] = (List.range (st.nextIdx + 1)).map d
        rw [List.range_succ, List.map_append, hemit, hmem.2]
        simp
      · show (mapDelete st.pending st.nextIdx).length ≤ fuel
        have := length_mapDelete_lt st.pending st.nextIdx v hl
        omega

theorem collectorStep_inv (d : Nat → SegmentData) (P : Finset Nat) (st : CollectorState)
    (j : Nat) (hInv : CollectorInv d P st) (hj : j ∉ P) :
    CollectorInv d (insert j P) (collectorStep st (j, d j)) := by
  obtain ⟨hchar, hlow, hnotin, hemit⟩ := hInv
  have hjge : st.nextIdx ≤ j := by
    by_contra hlt
    exact hj (hlow j (by omega))
  apply flushPending_inv
  · intro i
    show List.lookup i ((j, d j) :: st.pending) = _
    by_cases hij : i = j
    · subst hij
      rw [List.lookup_cons]
      have hb : (i == i) = true := beq_self_eq_true i
      rw [hb]
      have hc : i ∈ insert i P ∧ st.nextIdx ≤ i := ⟨Finset.mem_insert_self i P, hjge⟩
      rw [if_pos hc]
    · rw [List.lookup_cons]
      have hb : (i == j) = false := beq_eq_false_iff_ne.mpr hij
      rw [hb, hchar i]
      have hmemiff : i ∈ insert j P ↔ i ∈ P := by
        rw [Finset.mem_insert]
        exact ⟨fun h => h.elim (fun hc => absurd hc hij) id, Or.inr⟩
      by_cases hiP : i ∈ P
      · simp [hiP, hmemiff]
      · simp [hiP, hmemiff]
  · intro j2 hj2
    exact Finset.mem_insert_of_mem (hlow j2 hj2)
  · exact hemit
  · exact Nat.le_refl _

theorem runCollector_inv (d : Nat → SegmentData) :
    ∀ (rs : List (Nat × SegmentData)) (P : Finset Nat) (st : CollectorState),
      CollectorInv d P st →
      (∀ p ∈ rs, p.1 ∉ P ∧ p.2 = d p.1) →
      (rs.map Prod.fst).Nodup →
      CollectorInv d (P ∪ (rs.map Prod.fst).toFinset) (rs.foldl collectorStep st) := by
  intro rs
  induction rs with
  | nil =>
    intro P st hInv _ _
    simpa using hInv
  | cons r rest ih =>
    intro P st hInv hfresh hnodup
    rcases r with ⟨j, v⟩
    have hv : v = d j := (hfresh (j, v) (List.mem_cons_self _ _)).2
    have hjP : j ∉ P := (hfresh (j, v) (List.mem_cons_self _ _)).1
    have hstep : CollectorInv d (insert j P) (collectorStep st (j, v)) := by
      rw [hv]
      exact collectorStep_inv d P st j hInv hjP
    have hrest : ∀ p ∈ rest, p.1 ∉ insert j P ∧ p.2 = d p.1 := by
      intro p hp
      refine ⟨?_, (hfresh p (List.mem_cons_of_mem _ hp)).2⟩
      rw [Finset.mem_insert]
      rintro (h | h)
      · have hmem : p.1 ∈ rest.map Prod.fst := List.mem_map_of_mem Prod.fst hp
        rw [List.map_cons, List.nodup_cons] at hnodup
        exact hnodup.1 (h ▸ hmem)
      · exact (hfresh p (List.mem_cons_of_mem _ hp)).1 h
    have hnd : (rest.map Prod.fst).Nodup := by
      rw [List.map_cons, List.nodup_cons] at hnodup
      exact hnodup.2
    have := ih (insert j P) (collectorStep st (j, v)) hstep hrest hnd
    have hset : insert j P ∪ (rest.map Prod.fst).toFinset
        = P ∪ (((j, v) :: rest).map Prod.fst).toFinset := by
      ext x
      simp [Finset.mem_insert, Finset.mem_union, List.mem_toFinset]
    rw [List.foldl_cons]
    rw [← hset]
    exact this

theorem runCollector_emitted (n : Nat) (d : Nat → SegmentData)
    (rs : List (Nat × SegmentData))
    (hperm : rs.Perm ((List.range n).map fun i => (i, d i))) :
    (runCollector rs).emitted = (List.range n).map d := by
  have hkeys : (rs.map Prod.fst).Perm (List.range n) := by
    have h1 := hperm.map Prod.fst
    rw [List.map_map] at h1
    have h2 : List.map (Prod.fst ∘ fun i => (i, d i)) (List.range n) = List.range n := by
      rw [show (Prod.fst ∘ fun i => (i, d i)) = id from rfl, List.map_id]
    rwa [h2] at h1
  have hnodup : (rs.map Prod.fst).Nodup := hkeys.nodup_iff.mpr (List.nodup_range n)
  have hvals : ∀ p ∈ rs, p.1 ∉ (∅ : Finset Nat) ∧ p.2 = d p.1 := by
    intro p hp
    refine ⟨Finset.not_mem_empty _, ?_⟩
    have hp2 := hperm.mem_iff.mp hp
    rw [List.mem_map] at hp2
    obtain ⟨i, _, hip⟩ := hp2
    rw [← hip]
  have hInit : CollectorInv d ∅ ⟨[], 0, []⟩ := by
    refine ⟨fun i => by simp [List.lookup], fun j hj => absurd hj (Nat.not_lt_zero j),
      Finset.not_mem_empty _, by simp⟩
  have hfin := runCollector_inv d rs ∅ ⟨[], 0, []⟩ hInit hvals hnodup
  have hsets : (∅ : Finset Nat) ∪ (rs.map Prod.fst).toFinset = Finset.range n := by
    ext x
    simp only [Finset.empty_union, List.mem_toFinset, Finset.mem_range]
    rw [hkeys.mem_iff]
    exact List.mem_range
  rw [hsets] at hfin
  obtain ⟨hchar, hlow, hnotin, hemit⟩ := hfin
  have hrc : runCollector rs = rs.foldl collectorStep ⟨[], 0, []⟩ := rfl
  rw [hrc, hemit]
  have hn : (rs.foldl collectorStep (⟨[], 0, []⟩ : CollectorState)).nextIdx = n := by
    have h1 : (rs.foldl collectorStep (⟨[], 0, []⟩ : CollectorState)).nextIdx ≤ n := by
      by_contra hgt
      have hmem := hlow n (by omega)
      exact absurd (Finset.mem_range.mp hmem) (lt_irrefl n)
    have h2 : n ≤ (rs.foldl collectorStep (⟨[], 0, []⟩ : CollectorState)).nextIdx := by
      by_contra hlt
      exact hnotin (Finset.mem_range.mpr (by omega))
    omega
  rw [hn]

theorem readLoop_spec :
    ∀ (fuel k : Nat) (st : RState) (acc : List Nat),
      (k - acc.length) + st.queue.length < fuel →
      (readLoop k fuel st acc).1 = acc ++ st.remaining.take (k - acc.length) ∧
      (readLoop k fuel st acc).2.1
        = ((acc ++ st.remaining.take (k - acc.length)).isEmpty && decide (acc.length < k)) ∧
      (readLoop k fuel st acc).2.2.remaining = st.remaining.drop (k - acc.length) := by
  intro fuel
  induction fuel with
  | zero =>
    intro k st acc h
    omega
  | succ fuel ih =>
    intro k st acc h
    by_cases hacc : acc.length < k
    case neg =>
      have hm : k - acc.length = 0 := by omega
      rw [hm]
      simp only [readLoop, if_neg hacc]
      refine ⟨by simp, ?_, by simp⟩
      simp [hacc]
    case pos =>
      by_cases hcd : st.currPos < st.currData.length
      · -- copy branch
        have hchunk :
            readLoop k (fuel + 1) st acc =
            readLoop k fuel
              { st with
                currPos := st.currPos + min (k - acc.length) (st.currData.length - st.currPos) }
              (acc ++ (st.currData.drop st.currPos).take
                  (min (k - acc.length) (st.currData.length - st.currPos))) := by
          simp only [readLoop, if_pos hacc, if_pos hcd]
        set m := k - acc.length with hm
        set cl := st.currData.length - st.currPos with hcl
        set t := min m cl with ht
        have ht1 : 1 ≤ t := by omega
        have htm : t ≤ m := by omega
        have htcl : t ≤ cl := by omega
        have hchunklen : ((st.currData.drop st.currPos).take t).length = t := by
          rw [List.length_take, List.length_drop]
          omega
        have hCsplit : st.remaining
            = st.currData.drop st.currPos ++ (st.queue.map SegmentData.Body).flatten := rfl
        have hClen : (st.currData.drop st.currPos).length = cl := by
          rw [List.length_drop]
        have hfuel2 : (k - (acc ++ (st.currData.drop st.currPos).take t).length)
            + st.queue.length < fuel := by
          rw [List.length_append, hchunklen]
          omega
        obtain ⟨ih1, ih2, ih3⟩ := ih k
          { st with currPos := st.currPos + t }
          (acc ++ (st.currData.drop st.currPos).take t) hfuel2
        have hrem2 : RState.remaining { st with currPos := st.currPos + t }
            = st.remaining.drop t := by
          show st.currData.drop (st.currPos + t) ++ _ = _
          rw [hCsplit, List.drop_append_eq_append_drop, hClen]
          rw [show ((st.queue.map SegmentData.Body).flatten).drop (t - cl)
              = ((st.queue.map SegmentData.Body).flatten).drop 0 from by
            rw [Nat.sub_eq_zero_of_le htcl]]
          rw [List.drop_drop, List.drop_zero]
        have hm2 : k - (acc ++ (st.currData.drop st.currPos).take t).length = m - t := by
          rw [List.length_append, hchunklen]
          omega
        have htake : (st.currData.drop st.currPos).take t ++ (st.remaining.drop t).take (m - t)
            = st.remaining.take m := by
          have h1 : (st.currData.drop st.currPos).take t = st.remaining.take t := by
            rw [hCsplit, List.take_append_eq_append_take, hClen]
            rw [Nat.sub_eq_zero_of_le htcl]
            simp
          rw [h1, ← List.take_add, Nat.add_sub_cancel' htm]
        have hchunkne : (st.currData.drop st.currPos).take t ≠ [] := by
          intro hnil
          have := congrArg List.length hnil
          rw [hchunklen] at this
          simp at this
          omega
        refine ⟨?_, ?_, ?_⟩
        · rw [hchunk, ih1, hrem2, hm2, List.append_assoc, htake]
        · rw [hchunk, ih2, hrem2, hm2]
          have hl : (acc ++ (st.currData.drop st.currPos).take t
              ++ (st.remaining.drop t).take (m - t)).isEmpty = false := by
            rw [List.isEmpty_eq_false_iff_exists_mem]
            rcases List.exists_mem_of_ne_nil _ hchunkne with ⟨x, hx⟩
            exact ⟨x, by simp [hx]⟩
          have hr : (acc ++ st.remaining.take m).isEmpty = false := by
            rw [List.isEmpty_eq_false_iff_exists_mem]
            rcases List.exists_mem_of_ne_nil _ hchunkne with ⟨x, hx⟩
            have hx2 : x ∈ st.remaining.take m := by
              rw [← htake]
              exact List.mem_append_left _ hx
            exact ⟨x, by simp [hx2]⟩
          rw [hl, hr]
          simp
        · rw [hchunk, ih3, hrem2, hm2, List.drop_drop]
          rw [Nat.add_sub_cancel' htm]
      · -- current segment exhausted
        cases hq : st.queue with
        | nil =>
          have hrem : st.remaining = [] := by
            show st.currData.drop st.currPos ++ _ = []
            rw [hq, List.drop_of_length_le (by omega)]
            simp
          have hstep : readLoop k (fuel + 1) st acc = (acc, acc.isEmpty, st) := by
            simp only [readLoop, if_pos hacc, if_neg hcd, hq]
          rw [hstep, hrem]
          refine ⟨by simp, ?_, by simp [hrem]⟩
          simp [hacc]
        | cons dd rest =>
          have hstep : readLoop k (fuel + 1) st acc
              = readLoop k fuel ⟨dd.Body, 0, rest⟩ acc := by
            simp only [readLoop, if_pos hacc, if_neg hcd, hq]
          have hrem : RState.remaining ⟨dd.Body, 0, rest⟩ = st.remaining := by
            show dd.Body.drop 0 ++ _ = st.currData.drop st.currPos ++ _
            rw [List.drop_of_length_le (l := st.currData) (by omega), hq]
            simp
          have hfuel2 : (k - acc.length) + rest.length < fuel := by
            have : st.queue.length = rest.length + 1 := by rw [hq]; simp
            omega
          obtain ⟨ih1, ih2, ih3⟩ := ih k ⟨dd.Body, 0, rest⟩ acc hfuel2
          rw [hstep, ih1, ih2, ih3, hrem]
          exact ⟨rfl, rfl, rfl⟩

theorem take_isEmpty_of_pos (l : List Nat) (k : Nat) (hk : 1 ≤ k) :
    (l.take k).isEmpty = l.isEmpty := by
  cases l with
  | nil => simp
  | cons a rest =>
    cases k with
    | zero => omega
    | succ k => simp

theorem segmentsRead_spec (st : SegmentsStream) (k : Nat)
    (hcl : st.closed = false) (hk : 1 ≤ k) :
    (st.Read k).1 = st.rstate.remaining.take k ∧
    (st.Read k).2.1 = st.rstate.remaining.isEmpty ∧
    (st.Read k).2.2.closed = false ∧
    (st.Read k).2.2.rstate.remaining = st.rstate.remaining.drop k := by
  obtain ⟨h1, h2, h3⟩ :=
    readLoop_spec (k + st.rstate.queue.length + 1) k st.rstate [] (by simp)
  have hread : st.Read k =
      ((readLoop k (k + st.rstate.queue.length + 1) st.rstate []).1,
       (readLoop k (k + st.rstate.queue.length + 1) st.rstate []).2.1,
       { st with rstate := (readLoop k (k + st.rstate.queue.length + 1) st.rstate []).2.2 }) := by
    simp only [SegmentsStream.Read, hcl]
    rfl
  rw [hread]
  simp only [List.length_nil, Nat.sub_zero, List.nil_append] at h1 h2 h3
  refine ⟨h1, ?_, hcl, h3⟩
  rw [h2, take_isEmpty_of_pos _ _ hk]
  have : decide (0 < k) = true := by simp; omega
  simp [this]

theorem readToExhaustion_spec :
    ∀ (fuel k : Nat) (st : SegmentsStream),
      st.closed = false → 1 ≤ k → st.rstate.remaining.length < fuel →
      readToExhaustion fuel k st = (st.rstate.remaining, true) := by
  intro fuel
  induction fuel with
  | zero =>
    intro k st _ _ h
    omega
  | succ fuel ih =>
    intro k st hcl hk hlen
    obtain ⟨h1, h2, h3, h4⟩ := segmentsRead_spec st k hcl hk
    have hunfold : readToExhaustion (fuel + 1) k st =
        (if (st.Read k).2.1 then ((st.Read k).1, true)
         else ((st.Read k).1 ++ (readToExhaustion fuel k (st.Read k).2.2).1,
               (readToExhaustion fuel k (st.Read k).2.2).2)) := by
      simp only [readToExhaustion]
    by_cases hrem : st.rstate.remaining.isEmpty
    · have hnil : st.rstate.remaining = [] := List.isEmpty_iff.mp hrem
      rw [hunfold, h2, hrem, if_pos rfl, h1, hnil]
      simp
    · have hflag : (st.Read k).2.1 = false := by
        rw [h2]
        exact Bool.not_eq_true _ ▸ (by simpa using hrem)
      have hne : st.rstate.remaining ≠ [] := fun hc => hrem (by rw [hc]; rfl)
      have hlen2 : (st.Read k).2.2.rstate.remaining.length < fuel := by
        rw [h4, List.length_drop]
        have : 1 ≤ st.rstate.remaining.length := by
          cases hh : st.rstate.remaining with
          | nil => exact absurd hh hne
          | cons a rest => simp
        omega
      have hih := ih k (st.Read k).2.2 h3 hk hlen2
      rw [hunfold, hflag, if_neg (by simp), hih, h4, h1]
      rw [List.take_append_drop]

/-- C1: for every valid segment sequence and every order in which the
fetch workers deliver their results (an arbitrary permutation of the
indexed per-segment data), reading the segments stream to exhaustion
yields exactly the concatenation of the decoded segment bodies in
segment-index order, followed by EOF. -/
theorem segments_stream_in_order_delivery
    (n : Nat) (d : Nat → SegmentData) (segments : List Segment)
    (rs : List (Nat × SegmentData)) (k fuel : Nat)
    (hseg : segments.length = n)
    (hperm : rs.Perm ((List.range n).map fun i => (i, d i)))
    (hk : 1 ≤ k)
    (hfuel : (((List.range n).map fun i => (d i).Body).flatten).length < fuel) :
    readToExhaustion fuel k (SegmentsStream.init segments ((runCollector rs).emitted))
      = (((List.range n).map fun i => (d i).Body).flatten, true) := by
  have hemit := runCollector_emitted n d rs hperm
  have hcl : (SegmentsStream.init segments ((runCollector rs).emitted)).closed = false := by
    unfold SegmentsStream.init
    split <;> rfl
  have hrem : (SegmentsStream.init segments ((runCollector rs).emitted)).rstate.remaining
      = ((List.range n).map fun i => (d i).Body).flatten := by
    unfold SegmentsStream.init
    by_cases he : segments.isEmpty
    · rw [if_pos he]
      have hn : n = 0 := by
        rw [← hseg, List.isEmpty_iff.mp he]
        rfl
      subst hn
      simp [RState.remaining]
    · rw [if_neg he]
      show ([] : List Nat).drop 0 ++ ((runCollector rs).emitted.map SegmentData.Body).flatten = _
      rw [hemit]
      simp [List.map_map]
      rfl
  rw [readToExhaustion_spec fuel k _ hcl hk (by rw [hrem]; exact hfuel), hrem]

/-- Witness for C1 at a concrete 2-segment stream with results delivered
out of order. -/
theorem segments_stream_in_order_delivery_witness :
    readToExhaustion 4 1
        (SegmentsStream.init [⟨2, 1, "a"⟩, ⟨1, 2, "b"⟩]
          ((runCollector [(1, ⟨[3], ⟨2, 3⟩, 3, 1⟩), (0, ⟨[1, 2], ⟨0, 2⟩, 3, 2⟩)]).emitted))
      = (((List.range 2).map fun i =>
            ((fun i => if i = 0 then (⟨[1, 2], ⟨0, 2⟩, 3, 2⟩ : SegmentData)
              else ⟨[3], ⟨2, 3⟩, 3, 1⟩) i).Body).flatten, true) :=
  segments_stream_in_order_delivery 2
    (fun i => if i = 0 then ⟨[1, 2], ⟨0, 2⟩, 3, 2⟩ else ⟨[3], ⟨2, 3⟩, 3, 1⟩)
    [⟨2, 1, "a"⟩, ⟨1, 2, "b"⟩]
    [(1, ⟨[3], ⟨2, 3⟩, 3, 1⟩), (0, ⟨[1, 2], ⟨0, 2⟩, 3, 2⟩)]
    1 4 (by decide) (by decide) (by decide) (by decide)

/-- C10: a segments stream over an empty segment list starts no fetch
workers (the output channel is closed at once), its first Read returns
0 bytes with EOF, and Close succeeds and is idempotent. -/
theorem empty_segments_stream_eof (delivered : List SegmentData) (k : Nat) :
    (SegmentsStream.init [] delivered).fetchWorkersStarted = false ∧
    (SegmentsStream.init [] delivered).Read (k + 1)
      = ([], true, SegmentsStream.init [] delivered) ∧
    SegmentsStream.Close (SegmentsStream.init [] delivered)
      = (none, { SegmentsStream.init [] delivered with closed := true }) ∧
    SegmentsStream.Close (SegmentsStream.Close (SegmentsStream.init [] delivered)).2
      = (none, (SegmentsStream.Close (SegmentsStream.init [] delivered)).2) := by
  refine ⟨rfl, ?_, rfl, rfl⟩
  show SegmentsStream.Read ⟨false, ⟨[], 0, []⟩, false⟩ (k + 1) = _
  simp [SegmentsStream.Read, readLoop, SegmentsStream.init]

/-- C7: a Seek whose computed absolute position exceeds FileSize clamps
to FileSize and returns it without error, while a negative computed
position fails and leaves the current position unchanged. -/
theorem seek_clamp_and_negative (position fileSize offset whence : Int)
    (hw : whence = 0 ∨ whence = 1 ∨ whence = 2) (hfs : 0 ≤ fileSize) :
    (fileSize <
        (if whence = 0 then offset
         else if whence = 1 then position + offset
         else fileSize + offset) →
      FileStream.seek position fileSize offset whence = (fileSize, .ok fileSize)) ∧
    ((if whence = 0 then offset
      else if whence = 1 then position + offset
      else fileSize + offset) < 0 →
      FileStream.seek position fileSize offset whence
        = (position, .error "negative position")) := by
  have hgen : ∀ newPos : Int,
      (fileSize < newPos →
        FileStream.seek.seekTo position fileSize newPos = (fileSize, .ok fileSize)) ∧
      (newPos < 0 →
        FileStream.seek.seekTo position fileSize newPos
          = (position, .error "negative position")) := by
    intro newPos
    constructor
    · intro hcmp
      simp only [FileStream.seek.seekTo]
      rw [if_neg (by omega), if_pos hcmp]
    · intro hcmp
      simp only [FileStream.seek.seekTo]
      rw [if_pos hcmp]
  rcases hw with h | h | h
  · subst h
    exact ⟨fun hc => by simpa [FileStream.seek] using (hgen offset).1 hc,
           fun hc => by simpa [FileStream.seek] using (hgen offset).2 hc⟩
  · subst h
    exact ⟨fun hc => by simpa [FileStream.seek] using (hgen (position + offset)).1 hc,
           fun hc => by simpa [FileStream.seek] using (hgen (position + offset)).2 hc⟩
  · subst h
    exact ⟨fun hc => by simpa [FileStream.seek] using (hgen (fileSize + offset)).1 hc,
           fun hc => by simpa [FileStream.seek] using (hgen (fileSize + offset)).2 hc⟩

/-- Witness for C7 at concrete inputs: seek to 20 in a 10-byte file
from the start clamps to 10, and a negative position fails. -/
theorem seek_clamp_and_negative_witness :
    ((10 : Int) <
        (if (0 : Int) = 0 then (20 : Int)
         else if (0 : Int) = 1 then 0 + 20
         else 10 + 20) →
      FileStream.seek 0 10 20 0 = (10, .ok 10)) ∧
    ((if (0 : Int) = 0 then (20 : Int)
      else if (0 : Int) = 1 then 0 + 20
      else 10 + 20) < 0 →
      FileStream.seek 0 10 20 0 = (0, .error "negative position")) :=
  seek_clamp_and_negative 0 10 20 0 (Or.inl rfl) (by decide)

/-- C5 counterexample: a non-solid archive whose only listed entry is
compressed (packed 5, unpacked 10, no solid flag) still reports
archive-level IsStreamable = true — the stored check is not part of the
archive-level predicate. -/
theorem rar_archive_streamable_counterexample :
    RARArchive.IsStreamable [⟨"a.bin", 5, 10, false⟩] = true ∧
    ((5 : Int) = 10 → False) ∧
    UsenetRARFile.IsStreamable ⟨"a.bin", 5, 10, false⟩ = false := by decide

/-- C5 amended: archive-level IsStreamable holds exactly when no listed
entry carries the solid flag (in the error-free iteration); the
stored-entry check (packed == unpacked) is per-entry, via
UsenetRARFile.IsStreamable. -/
theorem rar_streamable_characterisation (headers : List RARHeader) (h : RARHeader) :
    (RARArchive.IsStreamable headers = true ↔ ∀ x ∈ headers, x.Solid = false) ∧
    (UsenetRARFile.IsStreamable h = true
      ↔ (h.Solid = false ∧ h.PackedSize = h.UnPackedSize)) := by
  constructor
  · simp [RARArchive.IsStreamable, RARArchive.isSolid, List.any_eq_true]
  · simp [UsenetRARFile.IsStreamable]

theorem boundarySegmentIds_first_last (a b : Segment) (mid : List Segment) :
    boundarySegmentIds (a :: (mid ++ [b])) = a.MessageId.trim ++ b.MessageId.trim := by
  cases mid with
  | nil => simp [boundarySegmentIds]
  | cons m ms =>
    show boundarySegmentIds (a :: m :: (ms ++ [b])) = _
    simp [boundarySegmentIds, List.getLast_append]

/-- C8: HashByFileBoundarySegmentIds depends only on the first and last
message-id of each file in file order — permuting a file's non-boundary
segments leaves the hash unchanged — and for a single-segment file only
that one message-id contributes. -/
theorem hash_boundary_only (md5hex : String → String)
    (pre post : List NzbFile) (f g : NzbFile) (first lastSeg s : Segment)
    (mid mid2 : List Segment) (hperm : mid.Perm mid2) :
    NZB.HashByFileBoundarySegmentIds md5hex
        ⟨pre ++ ({ f with Segments := first :: (mid ++ [lastSeg]) } :: post)⟩
      = NZB.HashByFileBoundarySegmentIds md5hex
        ⟨pre ++ ({ f with Segments := first :: (mid2 ++ [lastSeg]) } :: post)⟩
    ∧ NZB.HashByFileBoundarySegmentIds md5hex ⟨[{ g with Segments := [s] }]⟩
      = md5hex s.MessageId.trim := by
  constructor
  · unfold NZB.HashByFileBoundarySegmentIds
    simp only [List.map_append, List.map_cons, boundarySegmentIds_first_last]
  · unfold NZB.HashByFileBoundarySegmentIds
    exact congrArg md5hex (by simp [String.join, boundarySegmentIds])

/-- Witness for C8: a 3-segment file with its middle segments swapped
hashes identically, and a single-segment file hashes its only id. -/
theorem hash_boundary_only_witness :
    NZB.HashByFileBoundarySegmentIds (fun x => x)
        ⟨[] ++ ({ Subject := "x", Groups := [], Segments := ⟨1, 1, "a"⟩ ::
            ([⟨1, 2, "b"⟩, ⟨1, 3, "c"⟩] ++ [⟨1, 4, "d"⟩]), name := "f" : NzbFile } :: [])⟩
      = NZB.HashByFileBoundarySegmentIds (fun x => x)
        ⟨[] ++ ({ Subject := "x", Groups := [], Segments := ⟨1, 1, "a"⟩ ::
            ([⟨1, 3, "c"⟩, ⟨1, 2, "b"⟩] ++ [⟨1, 4, "d"⟩]), name := "f" : NzbFile } :: [])⟩
    ∧ NZB.HashByFileBoundarySegmentIds (fun x => x)
        ⟨[{ ({ Subject := "y", Groups := [], Segments := [], name := "g" } : NzbFile) with
            Segments := [⟨1, 1, "solo"⟩] }]⟩
      = (fun x => x) (Segment.MessageId ⟨1, 1, "solo"⟩).trim :=
  hash_boundary_only (fun x => x) [] []
    { Subject := "x", Groups := [], Segments := [], name := "f" }
    { Subject := "y", Groups := [], Segments := [], name := "g" }
    ⟨1, 1, "a"⟩ ⟨1, 4, "d"⟩ ⟨1, 1, "solo"⟩
    [⟨1, 2, "b"⟩, ⟨1, 3, "c"⟩] [⟨1, 3, "c"⟩, ⟨1, 2, "b"⟩] (by decide)

/-- C3: with a two-element content path whose first element matches an
NZB file by declared name but has no persisted content-file record, the
resolver run reaches the archive-name computation with a nil
contentFile — the nil dereference — instead of falling back to the
file's declared name. -/
theorem resolver_nil_contentfile_deref :
    streamByContentPathStep ⟨[⟨"subj", ["g"], [⟨700, 1, "m1"⟩], "movie.rar"⟩]⟩ []
        ["movie.rar", "video.mkv"] = ResolveStep.nilDeref := by decide

/-- C9 counterexample: for a link containing an ampersand but no
question mark, the cleaned link (and hence the cache key) truncates at
the ampersand, which is not the URL with query and fragment removed. -/
theorem clean_link_counterexample :
    cleanNZBFileLink "http://host/a&b" ≠ linkWithoutQueryAndFragment "http://host/a&b" ∧
    HashNZBFileLink (fun s => s) "http://host/a&b"
      ≠ linkWithoutQueryAndFragment "http://host/a&b" := by decide

/-- C9 amended: a failed fetch is negatively cached (with the 5-minute
lifetime) under the md5 of the cleaned link — the link truncated at the
first question mark, else at the first ampersand, then at the first
hash — and within the lifetime window a repeated fetch of the same link
returns the cached error text without network I/O. -/
theorem negative_cache_behaviour (md5hex : String → String) (st : NZBFetchState)
    (link : String) (now now2 : Int) (e : String) (net2 : Except String String)
    (hfile : List.lookup (HashNZBFileLink md5hex link) st.fileCache = none)
    (herr : errCacheGet st (HashNZBFileLink md5hex link) now = none)
    (hlo : now ≤ now2) (hhi : now2 < now + errCacheLifetime) :
    fetchNZBFile md5hex now (.error e) st link
      = (.error e,
         { st with errCache := (HashNZBFileLink md5hex link, e, now) :: st.errCache },
         true) ∧
    fetchNZBFile md5hex now2 net2
        { st with errCache := (HashNZBFileLink md5hex link, e, now) :: st.errCache } link
      = (.error ("cached failure: " ++ e),
         { st with errCache := (HashNZBFileLink md5hex link, e, now) :: st.errCache },
         false) := by
  constructor
  · simp only [fetchNZBFile, hfile, herr]
  · simp only [fetchNZBFile]
    have hfile2 : List.lookup (HashNZBFileLink md5hex link)
        ({ st with errCache := (HashNZBFileLink md5hex link, e, now) :: st.errCache
          } : NZBFetchState).fileCache = none := hfile
    rw [hfile2]
    have herr2 : errCacheGet
        { st with errCache := (HashNZBFileLink md5hex link, e, now) :: st.errCache }
        (HashNZBFileLink md5hex link) now2 = some e := by
      unfold errCacheGet
      show (match List.lookup (HashNZBFileLink md5hex link)
          ((HashNZBFileLink md5hex link, e, now) :: st.errCache) with
        | some (txt, t) => if now2 < t + errCacheLifetime then some txt else none
        | none => none) = some e
      rw [List.lookup_cons, beq_self_eq_true]
      show (if now2 < now + errCacheLifetime then some e else none) = some e
      rw [if_pos hhi]
    rw [herr2]

/-- Witness for C9 at a concrete link and clock: the failure at time 0
is cached and the refetch at time 100 returns the cached text without
network I/O. -/
theorem negative_cache_behaviour_witness :
    fetchNZBFile (fun s => s) 0 (.error "boom") ⟨[], []⟩ "http://h/x"
      = (.error "boom",
         { (⟨[], []⟩ : NZBFetchState) with
            errCache := (HashNZBFileLink (fun s => s) "http://h/x", "boom", 0) :: [] },
         true) ∧
    fetchNZBFile (fun s => s) 100 (.ok "data")
        { (⟨[], []⟩ : NZBFetchState) with
            errCache := (HashNZBFileLink (fun s => s) "http://h/x", "boom", 0) :: [] }
        "http://h/x"
      = (.error ("cached failure: " ++ "boom"),
         { (⟨[], []⟩ : NZBFetchState) with
            errCache := (HashNZBFileLink (fun s => s) "http://h/x", "boom", 0) :: [] },
         false) :=
  negative_cache_behaviour (fun s => s) ⟨[], []⟩ "http://h/x" 0 100 "boom" (.ok "data")
    rfl rfl (by decide) (by decide)

/-- C2 counterexample: an adversarial 8-segment file (one huge declared
first segment, unit decoded segments below one huge final segment) on
which the search finds the target only after 6 probes, exceeding the
claimed bound of ceil(log2 8) + 1 = 4 (the power 2 ^ 3 = 8 pins the
logarithm). -/
theorem interpolation_probes_exceed_log :
    interpolationSearch [10000, 1, 1, 1, 1, 1, 1, 1] 1007
        (fun i => if i < 7 then ⟨(i : Int), (i : Int) + 1⟩ else ⟨7, 1007⟩) 5
      = (6, some ⟨5, ⟨5, 6⟩⟩) ∧
    2 ^ 3 = 8 ∧ ¬ (6 ≤ 3 + 1) := by decide

/-- C6 counterexample: a non-archive filename is dropped from every
group (the concatenation of the groups misses it), and duplicate volume
filenames make a group's `Volumes` list non-strict. -/
theorem group_archive_volumes_counterexample :
    (((groupArchiveVolumes [⟨"a.txt", 5⟩, ⟨"b.rar", 2⟩, ⟨"b.rar", 3⟩]).map
        ArchiveVolumeGroup.Files).flatten).length
      ≠ ([⟨"a.txt", 5⟩, ⟨"b.rar", 2⟩, ⟨"b.rar", 3⟩] : List SimpleFile).length ∧
    ∃ g ∈ groupArchiveVolumes [⟨"a.txt", 5⟩, ⟨"b.rar", 2⟩, ⟨"b.rar", 3⟩],
      ¬ g.Volumes.Chain' (fun a b => a < b) := by
  refine ⟨by decide, ⟨"b", false, FileType.RAR, [⟨"b.rar", 2⟩, ⟨"b.rar", 3⟩], [0, 0], 5⟩,
    by decide, ?_⟩
  show ¬ List.Chain' (fun a b => a < b) [(0 : Int), 0]
  simp [List.chain'_cons]

/-- C4 counterexample: with a 100-byte non-video non-archive file and a
50-byte video file, StreamLargestFile selects the video file — the skip
predicate discards exactly the files the claim says it should keep. -/
theorem stream_largest_file_counterexample :
    StreamLargestFileIdx ⟨[⟨"s1", [], [⟨100, 1, "m1"⟩], "a.txt"⟩,
        ⟨"s2", [], [⟨50, 1, "m2"⟩], "b.mkv"⟩]⟩ = 1 ∧
    isVideoFile "a.txt" = false ∧ IsArchiveFile "a.txt" = false ∧
    isVideoFile "b.mkv" = true ∧
    NzbFile.Size ⟨"s1", [], [⟨100, 1, "m1"⟩], "a.txt"⟩ = 100 ∧
    NzbFile.Size ⟨"s2", [], [⟨50, 1, "m2"⟩], "b.mkv"⟩ = 50 := by decide

theorem searchLoop_probes (ranges : Nat → ByteRange) (target : Int) :
    ∀ (fuel : Nat) (iR bR : ByteRange),
      (searchLoop ranges target fuel iR bR).1 ≤ iR.Count.toNat := by
  intro fuel
  induction fuel with
  | zero =>
    intro iR bR
    simp [searchLoop]
  | succ fuel ih =>
    intro iR bR
    have hcount : iR.Count = iR.End - iR.Start := rfl
    by_cases hc : (!bR.Contains target || decide (iR.Count ≤ 0)) = true
    · simp only [searchLoop, hc, if_true]
      simp
    · have hcpos : 0 < iR.Count := by
        rcases Bool.or_eq_false_iff.mp (Bool.not_eq_true _ ▸ hc : _ = false) with ⟨_, h2⟩
        simpa using h2
      simp only [searchLoop, hc, Bool.false_eq_true, if_false]
      generalize hg :
        (if iR.Start + (target - bR.Start) * iR.Count / bR.Count < iR.Start then iR.Start
         else if iR.End ≤ iR.Start + (target - bR.Start) * iR.Count / bR.Count then iR.End - 1
         else iR.Start + (target - bR.Start) * iR.Count / bR.Count) = g
      have hgbounds : iR.Start ≤ g ∧ g < iR.End := by
        rw [← hg]
        split
        · omega
        · split <;> omega
      by_cases hcr : (!bR.ContainsRange (ranges g.toNat)) = true
      · rw [if_pos hcr]
        omega
      · rw [if_neg hcr]
        by_cases hfound : (ranges g.toNat).Contains target = true
        · rw [if_pos hfound]
          omega
        · rw [if_neg hfound]
          by_cases hlow : target < (ranges g.toNat).Start
          · rw [if_pos hlow]
            have hrec := ih ⟨iR.Start, g⟩ ⟨bR.Start, (ranges g.toNat).Start⟩
            have hcnt2 : (ByteRange.mk iR.Start g).Count = g - iR.Start := rfl
            simp only at hrec ⊢
            omega
          · rw [if_neg hlow]
            have hrec := ih ⟨g + 1, iR.End⟩ ⟨(ranges g.toNat).End, bR.End⟩
            have hcnt2 : (ByteRange.mk (g + 1) iR.End).Count = iR.End - (g + 1) := rfl
            simp only at hrec ⊢
            omega

/-- C2 amended: for every file, every oracle of decoded segment ranges,
and every target byte, the interpolation search performs at most
SegmentCount segment-range probes (the logarithmic bound claimed by the
spec fails; see the counterexample theorem). -/
theorem interpolation_probes_linear_bound (segBytes : List Int) (fileSize : Int)
    (ranges : Nat → ByteRange) (target : Int) :
    (interpolationSearch segBytes fileSize ranges target).1 ≤ segBytes.length := by
  have hsl := searchLoop_probes ranges target
  unfold interpolationSearch
  dsimp only
  split
  next h0 =>
    simp
  next h0 =>
    split
    next h1 =>
      simp
    next h1 =>
      split
      next hguard =>
        rw [Bool.and_eq_true, decide_eq_true_eq, decide_eq_true_eq] at hguard
        split
        next hfound =>
          simp only
          omega
        next hfound =>
          simp only
          split
          next hlow =>
            have hr := hsl ((ByteRange.mk 0 (estimateSegmentIndex segBytes fileSize target)).Count.toNat + 1)
              ⟨0, estimateSegmentIndex segBytes fileSize target⟩
              ⟨0, (ranges (estimateSegmentIndex segBytes fileSize target).toNat).Start⟩
            have hc : (ByteRange.mk 0 (estimateSegmentIndex segBytes fileSize target)).Count
                = estimateSegmentIndex segBytes fileSize target := by
              show estimateSegmentIndex segBytes fileSize target - 0 = _
              omega
            omega
          next hlow =>
            have hr := hsl ((ByteRange.mk (estimateSegmentIndex segBytes fileSize target + 1)
                  (segBytes.length : Int)).Count.toNat + 1)
              ⟨estimateSegmentIndex segBytes fileSize target + 1, (segBytes.length : Int)⟩
              ⟨(ranges (estimateSegmentIndex segBytes fileSize target).toNat).End, fileSize⟩
            have hc : (ByteRange.mk (estimateSegmentIndex segBytes fileSize target + 1)
                  (segBytes.length : Int)).Count
                = (segBytes.length : Int) - (estimateSegmentIndex segBytes fileSize target + 1) := rfl
            omega
      next hguard =>
        have hr := hsl (((segBytes.length : Int)).toNat + 1) ⟨0, (segBytes.length : Int)⟩ ⟨0, fileSize⟩
        have hc : (ByteRange.mk 0 (segBytes.length : Int)).Count = (segBytes.length : Int) := by
          show (segBytes.length : Int) - 0 = _
          omega
        rw [hc] at hr
        omega

theorem getLargestAux_spec (skip : String → Bool) :
    ∀ (l : List NzbFile) (i li ls : Int), 0 ≤ ls →
      (getLargestAux skip l i li ls = li ∧
        ∀ g ∈ l, skip g.Name = false → g.Size ≤ ls) ∨
      (∃ j : Fin l.length,
        getLargestAux skip l i li ls = i + (j.val : Int) ∧
        skip (l.get j).Name = false ∧ ls < (l.get j).Size ∧
        ∀ g ∈ l, skip g.Name = false → g.Size ≤ (l.get j).Size) := by
  intro l
  induction l with
  | nil =>
    intro i li ls hls
    left
    exact ⟨rfl, by simp⟩
  | cons f rest ih =>
    intro i li ls hls
    by_cases hskip : skip f.Name = true
    · have hstep : getLargestAux skip (f :: rest) i li ls
          = getLargestAux skip rest (i + 1) li ls := by
        simp [getLargestAux, hskip]
      rcases ih (i + 1) li ls hls with ⟨hval, hall⟩ | ⟨j, hval, hns, hlt, hall⟩
      · left
        refine ⟨hstep ▸ hval, ?_⟩
        intro g hg hgs
        rcases List.mem_cons.mp hg with h | h
        · rw [h] at hgs
          rw [hgs] at hskip
          cases hskip
        · exact hall g h hgs
      · right
        refine ⟨⟨j.val + 1, Nat.succ_lt_succ j.isLt⟩, ?_, ?_, ?_, ?_⟩
        · rw [hstep, hval]
          push_cast
          ring
        · simpa using hns
        · simpa using hlt
        · intro g hg hgs
          rcases List.mem_cons.mp hg with h | h
          · rw [h] at hgs
            rw [hgs] at hskip
            cases hskip
          · simpa using hall g h hgs
    · have hskipf : skip f.Name = false := Bool.not_eq_true _ ▸ (by simpa using hskip)
      by_cases hgt : ls < f.Size
      · have hstep : getLargestAux skip (f :: rest) i li ls
            = getLargestAux skip rest (i + 1) i f.Size := by
          simp [getLargestAux, hskip, hgt]
        have hfs : (0 : Int) ≤ f.Size := by omega
        rcases ih (i + 1) i f.Size hfs with ⟨hval, hall⟩ | ⟨j, hval, hns, hlt, hall⟩
        · right
          refine ⟨⟨0, Nat.succ_pos _⟩, ?_, ?_, ?_, ?_⟩
          · rw [hstep, hval]
            simp
          · simpa using hskipf
          · simpa using hgt
          · intro g hg hgs
            rcases List.mem_cons.mp hg with h | h
            · rw [h]
              simp
            · simpa using hall g h hgs
        · right
          refine ⟨⟨j.val + 1, Nat.succ_lt_succ j.isLt⟩, ?_, ?_, ?_, ?_⟩
          · rw [hstep, hval]
            push_cast
            ring
          · simpa using hns
          · have : ls < f.Size := hgt
            have h2 : f.Size < (rest.get j).Size := hlt
            simpa using lt_trans this h2
          · intro g hg hgs
            rcases List.mem_cons.mp hg with h | h
            · rw [h]
              simpa using le_of_lt hlt
            · simpa using hall g h hgs
      · have hstep : getLargestAux skip (f :: rest) i li ls
            = getLargestAux skip rest (i + 1) li ls := by
          simp [getLargestAux, hskip, hgt]
        rcases ih (i + 1) li ls hls with ⟨hval, hall⟩ | ⟨j, hval, hns, hlt, hall⟩
        · left
          refine ⟨hstep ▸ hval, ?_⟩
          intro g hg hgs
          rcases List.mem_cons.mp hg with h | h
          · rw [h]
            omega
          · exact hall g h hgs
        · right
          refine ⟨⟨j.val + 1, Nat.succ_lt_succ j.isLt⟩, ?_, ?_, ?_, ?_⟩
          · rw [hstep, hval]
            push_cast
            ring
          · simpa using hns
          · simpa using hlt
          · intro g hg hgs
            rcases List.mem_cons.mp hg with h | h
            · rw [h]
              have h1 : f.Size ≤ ls := by omega
              have h2 : ls < (rest.get j).Size := hlt
              simpa using le_of_lt (lt_of_le_of_lt h1 h2)
            · simpa using hall g h hgs

/-- C4 amended: whenever StreamLargestFile resolves an index, the
selected file's name IS a video file or an archive file (the skip
predicate discards names that are neither), its size is positive, and it
is largest among all video-or-archive files of the NZB. -/
theorem stream_largest_selects_video_or_archive (nzb : NZB) (k : Nat)
    (hk : StreamLargestFileIdx nzb = (k : Int)) (hlen : k < nzb.Files.length) :
    (isVideoFile (nzb.Files.get ⟨k, hlen⟩).Name
      || IsArchiveFile (nzb.Files.get ⟨k, hlen⟩).Name) = true ∧
    0 < (nzb.Files.get ⟨k, hlen⟩).Size ∧
    ∀ g ∈ nzb.Files, (isVideoFile g.Name || IsArchiveFile g.Name) = true →
      g.Size ≤ (nzb.Files.get ⟨k, hlen⟩).Size := by
  have hspec := getLargestAux_spec streamLargestFileSkip nzb.Files 0 (-1) 0 (le_refl 0)
  have hval : getLargestAux streamLargestFileSkip nzb.Files 0 (-1) 0 = (k : Int) := hk
  have hkeep : ∀ (name : String),
      streamLargestFileSkip name = false ↔ (isVideoFile name || IsArchiveFile name) = true := by
    intro name
    unfold streamLargestFileSkip
    cases hv : isVideoFile name <;> cases ha : IsArchiveFile name <;> simp
  rcases hspec with ⟨hli, _⟩ | ⟨j, hj, hns, hlt, hall⟩
  · rw [hval] at hli
    omega
  · rw [hval] at hj
    have hkj : k = j.val := by
      have : (k : Int) = (j.val : Int) := by omega
      exact_mod_cast this
    have hget : nzb.Files.get ⟨k, hlen⟩ = nzb.Files.get j := by
      congr 1
      exact Fin.ext hkj
    rw [hget]
    refine ⟨(hkeep _).mp hns, by omega, ?_⟩
    intro g hg hgk
    exact hall g hg ((hkeep g.Name).mpr hgk)

/-- Witness for C4 amended at the counterexample NZB: index 1 is
selected; its file b.mkv is a video file and the largest such. -/
theorem stream_largest_selects_video_or_archive_witness :
    (isVideoFile ((NZB.Files ⟨[⟨"s1", [], [⟨100, 1, "m1"⟩], "a.txt"⟩,
          ⟨"s2", [], [⟨50, 1, "m2"⟩], "b.mkv"⟩]⟩).get ⟨1, by decide⟩).Name
      || IsArchiveFile ((NZB.Files ⟨[⟨"s1", [], [⟨100, 1, "m1"⟩], "a.txt"⟩,
          ⟨"s2", [], [⟨50, 1, "m2"⟩], "b.mkv"⟩]⟩).get ⟨1, by decide⟩).Name) = true ∧
    0 < ((NZB.Files ⟨[⟨"s1", [], [⟨100, 1, "m1"⟩], "a.txt"⟩,
          ⟨"s2", [], [⟨50, 1, "m2"⟩], "b.mkv"⟩]⟩).get ⟨1, by decide⟩).Size ∧
    ∀ g ∈ NZB.Files ⟨[⟨"s1", [], [⟨100, 1, "m1"⟩], "a.txt"⟩,
          ⟨"s2", [], [⟨50, 1, "m2"⟩], "b.mkv"⟩]⟩,
      (isVideoFile g.Name || IsArchiveFile g.Name) = true →
      g.Size ≤ ((NZB.Files ⟨[⟨"s1", [], [⟨100, 1, "m1"⟩], "a.txt"⟩,
          ⟨"s2", [], [⟨50, 1, "m2"⟩], "b.mkv"⟩]⟩).get ⟨1, by decide⟩).Size :=
  stream_largest_selects_video_or_archive
    ⟨[⟨"s1", [], [⟨100, 1, "m1"⟩], "a.txt"⟩, ⟨"s2", [], [⟨50, 1, "m2"⟩], "b.mkv"⟩]⟩
    1 (by decide) (by decide)

theorem insertSorted_perm {α : Type} (le : α → α → Bool) (a : α) (l : List α) :
    (insertSorted le a l).Perm (a :: l) := by
  induction l with
  | nil => exact List.Perm.refl _
  | cons b bs ih =>
    by_cases h : le a b = true
    · rw [insertSorted, if_pos h]
    · rw [insertSorted, if_neg h]
      exact (ih.cons b).trans (List.Perm.swap a b bs)

theorem stableSort_perm {α : Type} (le : α → α → Bool) (l : List α) :
    (stableSort le l).Perm l := by
  induction l with
  | nil => exact List.Perm.refl _
  | cons a as ih =>
    exact (insertSorted_perm le a (stableSort le as)).trans (ih.cons a)

theorem insertSorted_pairwise {α : Type} (le : α → α → Bool)
    (htot : ∀ a b, le a b = true ∨ le b a = true)
    (htrans : ∀ a b c, le a b = true → le b c = true → le a c = true)
    (a : α) (l : List α) (hl : l.Pairwise (fun x y => le x y = true)) :
    (insertSorted le a l).Pairwise (fun x y => le x y = true) := by
  induction l with
  | nil => simp [insertSorted]
  | cons b bs ih =>
    rcases List.pairwise_cons.mp hl with ⟨hb, hbs⟩
    by_cases h : le a b = true
    · rw [insertSorted, if_pos h]
      refine List.pairwise_cons.mpr ⟨?_, hl⟩
      intro c hc
      rcases List.mem_cons.mp hc with hcb | hcbs
      · rw [hcb]
        exact h
      · exact htrans a b c h (hb c hcbs)
    · rw [insertSorted, if_neg h]
      have hba : le b a = true := (htot a b).resolve_left h
      refine List.pairwise_cons.mpr ⟨?_, ih hbs⟩
      intro c hc
      have hcmem : c ∈ a :: bs := (insertSorted_perm le a bs).mem_iff.mp hc
      rcases List.mem_cons.mp hcmem with hca | hcbs
      · rw [hca]
        exact hba
      · exact hb c hcbs

theorem stableSort_pairwise {α : Type} (le : α → α → Bool)
    (htot : ∀ a b, le a b = true ∨ le b a = true)
    (htrans : ∀ a b c, le a b = true → le b c = true → le a c = true)
    (l : List α) :
    (stableSort le l).Pairwise (fun x y => le x y = true) := by
  induction l with
  | nil => simp [stableSort]
  | cons a as ih =>
    exact insertSorted_pairwise le htot htrans a (stableSort le as) ih

/-- Concatenation of the files stored in a grouping accumulator. -/
def groupsFiles (gs : List (String × ArchiveVolumeGroup)) : List SimpleFile :=
  (gs.map (fun kg => kg.2.Files)).flatten

theorem updateGroups_files_perm (key : String) (f : SimpleFile) (baseName : String)
    (ft : FileType) (gs : List (String × ArchiveVolumeGroup)) :
    (groupsFiles (updateGroups key f baseName ft gs)).Perm (groupsFiles gs ++ [f]) := by
  induction gs with
  | nil =>
    simp [updateGroups, groupsFiles]
  | cons kg rest ih =>
    rcases kg with ⟨k, g⟩
    by_cases hk : k = key
    · rw [updateGroups, if_pos hk]
      show ((g.Files ++ [f]) ++ groupsFiles rest).Perm ((g.Files ++ groupsFiles rest) ++ [f])
      rw [List.append_assoc, List.append_assoc]
      exact List.Perm.append_left g.Files List.perm_append_comm
    · rw [updateGroups, if_neg hk]
      have hcons : groupsFiles ((k, g) :: rest) = g.Files ++ groupsFiles rest := rfl
      show (g.Files ++ groupsFiles (updateGroups key f baseName ft rest)).Perm _
      rw [hcons, List.append_assoc]
      exact List.Perm.append_left g.Files ih

theorem buildGroups_files_perm (files : List SimpleFile) :
    ∀ gs : List (String × ArchiveVolumeGroup),
      (groupsFiles (files.foldl
        (fun gs f =>
          let bt := getArchiveBaseName f.Name
          if bt.2 = FileType.Plain then gs
          else updateGroups (bt.1 ++ ":" ++ bt.2.str) f bt.1 bt.2 gs)
        gs)).Perm
      (groupsFiles gs ++
        files.filter (fun f => (getArchiveBaseName f.Name).2 ≠ FileType.Plain)) := by
  induction files with
  | nil =>
    intro gs
    simp
  | cons f rest ih =>
    intro gs
    rw [List.foldl_cons, List.filter_cons]
    by_cases hp : (getArchiveBaseName f.Name).2 = FileType.Plain
    · have hcond : (decide ((getArchiveBaseName f.Name).2 ≠ FileType.Plain)) = false := by
        simp [hp]
      rw [hcond]
      simp only [if_neg (by simp [hp] : ¬ ((getArchiveBaseName f.Name).2 ≠ FileType.Plain))]
      have hstep :
          (if (getArchiveBaseName f.Name).2 = FileType.Plain then gs
           else updateGroups ((getArchiveBaseName f.Name).1 ++ ":"
              ++ (getArchiveBaseName f.Name).2.str) f
              (getArchiveBaseName f.Name).1 (getArchiveBaseName f.Name).2 gs) = gs := by
        rw [if_pos hp]
      simp only [hstep] at *
      exact ih gs
    · have hcond : (decide ((getArchiveBaseName f.Name).2 ≠ FileType.Plain)) = true := by
        simp [hp]
      rw [hcond]
      have hstep :
          (if (getArchiveBaseName f.Name).2 = FileType.Plain then gs
           else updateGroups ((getArchiveBaseName f.Name).1 ++ ":"
              ++ (getArchiveBaseName f.Name).2.str) f
              (getArchiveBaseName f.Name).1 (getArchiveBaseName f.Name).2 gs)
          = updateGroups ((getArchiveBaseName f.Name).1 ++ ":"
              ++ (getArchiveBaseName f.Name).2.str) f
              (getArchiveBaseName f.Name).1 (getArchiveBaseName f.Name).2 gs := by
        rw [if_neg hp]
      simp only [hstep]
      have h1 := ih (updateGroups ((getArchiveBaseName f.Name).1 ++ ":"
        ++ (getArchiveBaseName f.Name).2.str) f
        (getArchiveBaseName f.Name).1 (getArchiveBaseName f.Name).2 gs)
      have h2 := updateGroups_files_perm ((getArchiveBaseName f.Name).1 ++ ":"
        ++ (getArchiveBaseName f.Name).2.str) f
        (getArchiveBaseName f.Name).1 (getArchiveBaseName f.Name).2 gs
      have h3 := h1.trans (h2.append_right _)
      refine h3.trans ?_
      rw [List.append_assoc]
      refine List.Perm.append_left (groupsFiles gs) ?_
      show ([f] ++ _).Perm _
      rw [List.singleton_append]
      simp

theorem finalized_files_perm (gs : List (String × ArchiveVolumeGroup)) :
    (((gs.map (fun kg => finalizeGroup kg.2)).map ArchiveVolumeGroup.Files).flatten).Perm
      (groupsFiles gs) := by
  induction gs with
  | nil => exact List.Perm.refl _
  | cons kg rest ih =>
    show ((finalizeGroup kg.2).Files ++ _).Perm (kg.2.Files ++ _)
    exact (stableSort_perm _ kg.2.Files).append ih

/-- C6 amended: the groups' concatenated files form a permutation of the
archive-classified subset of the input (non-archive names are dropped);
each group's `Volumes` lists the volume numbers of its files, sorted
non-decreasingly; and the groups are ordered by descending total size. -/
theorem group_archive_volumes_spec (files : List SimpleFile) :
    (((groupArchiveVolumes files).map ArchiveVolumeGroup.Files).flatten).Perm
      (files.filter (fun f => (getArchiveBaseName f.Name).2 ≠ FileType.Plain)) ∧
    (∀ g ∈ groupArchiveVolumes files,
      g.Volumes = g.Files.map (fun f => getFileVolume f g.FileType) ∧
      g.Volumes.Chain' (fun a b => a ≤ b)) ∧
    (groupArchiveVolumes files).Chain' (fun a b => b.TotalSize ≤ a.TotalSize) := by
  refine ⟨?_, ?_, ?_⟩
  · have h1 : (groupArchiveVolumes files).Perm
        ((buildGroups files).map (fun kg => finalizeGroup kg.2)) := stableSort_perm _ _
    have h3 := (h1.map ArchiveVolumeGroup.Files).flatten
    have h4 := finalized_files_perm (buildGroups files)
    have h5 := buildGroups_files_perm files []
    exact h3.trans (h4.trans (by simpa [groupsFiles] using h5))
  · intro g hg
    have hmem : g ∈ (buildGroups files).map (fun kg => finalizeGroup kg.2) :=
      (stableSort_perm _ _).mem_iff.mp hg
    rcases List.mem_map.mp hmem with ⟨kg, _, hfg⟩
    have hpw := stableSort_pairwise
      (fun a b => getFileVolume a kg.2.FileType ≤ getFileVolume b kg.2.FileType)
      (fun a b => by
        rcases le_total (getFileVolume a kg.2.FileType) (getFileVolume b kg.2.FileType)
          with h | h
        · exact Or.inl (decide_eq_true h)
        · exact Or.inr (decide_eq_true h))
      (fun a b c hab hbc =>
        decide_eq_true (le_trans (of_decide_eq_true hab) (of_decide_eq_true hbc)))
      kg.2.Files
    constructor
    · rw [← hfg]
      rfl
    · rw [← hfg]
      show ((stableSort _ kg.2.Files).map
        (fun f => getFileVolume f kg.2.FileType)).Chain' (fun a b => a ≤ b)
      refine List.Pairwise.chain' ?_
      exact List.Pairwise.map _ (fun a b h => of_decide_eq_true h) hpw
  · have hpw := stableSort_pairwise
      (fun a b : ArchiveVolumeGroup => b.TotalSize ≤ a.TotalSize)
      (fun a b => by
        rcases le_total b.TotalSize a.TotalSize with h | h
        · exact Or.inl (decide_eq_true h)
        · exact Or.inr (decide_eq_true h))
      (fun a b c hab hbc =>
        decide_eq_true (le_trans (of_decide_eq_true hbc) (of_decide_eq_true hab)))
      ((buildGroups files).map (fun kg => finalizeGroup kg.2))
    exact List.Pairwise.chain' (hpw.imp (fun h => of_decide_eq_true h))
